import Mathlib

/-!
Verification of the `AsBitMaskRs` bit-mask codec (crates `as_bit_mask` and
`as_bit_mask_derive`).

The derive macros resolve each named boolean field of a struct to a bit index
and emit `as_bytes` / `from_bytes` (byte-packed form) and `as_bits` /
`from_bits` (boolean-array form).  We embed the code the macros emit, for an
arbitrary resolved field list, as executable Lean functions:

* a struct value is the list of its boolean field values in declaration order;
* an explicit-mode schema is a list of `(bit_index, value)` pairs in
  declaration order (`field_data` in the macro source);
* byte values are `Nat`s (every emitted byte expression is an OR of terms
  `(field as u8) << (idx % 8)` with `idx % 8 < 8`, hence `< 256`).
-/

namespace AsBitMaskRs

/-- A resolved flag of an explicit-mode schema: the pair
`(bit_index, field value)`, listed in declaration order. -/
abbrev Flag := Nat × Bool

/-- Models `field_data.iter().map(|(_, idx)| *idx).max().unwrap_or(0)`:
the maximum declared bit index, defaulting to `0` for an empty field list. -/
def maxIndex (idxs : List Nat) : Nat := idxs.foldr max 0

/-- Models `let num_bytes = (num_fields + 7) / 8;` of `derive_as_bit_mask`
(implicit mode, ceiling division by 8). -/
def numBytesImplicit (numFields : Nat) : Nat := (numFields + 7) / 8

/-- Models `let num_bytes = (max_index + 8) / 8;` of
`derive_as_bit_mask_explicit`. -/
def numBytesExplicit (idxs : List Nat) : Nat := (maxIndex idxs + 8) / 8

/-- Combines the emitted terms of one byte expression with bitwise OR.
The macro emits `t1 | t2 | ... | tk`, or the literal `0` when no field
claims the byte; since `|` is associative with identity `0`, folding over
the term list with `0` models both cases. -/
def orTerms (ts : List Nat) : Nat := ts.foldr (· ||| ·) 0

/-- Models byte `byte_index` of explicit-mode `as_bytes`: every field with
`byte_start <= idx && idx <= byte_end` contributes the term
`((self.field as u8) << (idx % 8))`, in declaration order. -/
def byteExprExplicit (fields : List Flag) (j : Nat) : Nat :=
  orTerms
    ((fields.filter (fun f => decide (8 * j ≤ f.1) && decide (f.1 ≤ 8 * j + 7))).map
      (fun f => f.2.toNat <<< (f.1 % 8)))

/-- Models explicit-mode `as_bytes`: the array literal of all
`num_bytes` byte expressions. -/
def asBytesExplicit (fields : List Flag) : List Nat :=
  (List.range (numBytesExplicit (fields.map Prod.fst))).map (byteExprExplicit fields)

/-- Models byte `byte_index` of implicit-mode `as_bytes`: for each
`bit_pos in 0..8`, the field at declaration position
`field_index = byte_index * 8 + bit_pos` (when it exists) contributes
`((self.field as u8) << bit_pos)`. -/
def byteExprImplicit (values : List Bool) (j : Nat) : Nat :=
  orTerms
    (((List.range 8).filter (fun p => decide (8 * j + p < values.length))).map
      (fun p => (values.getD (8 * j + p) false).toNat <<< p))

/-- Models implicit-mode `as_bytes`. -/
def asBytesImplicit (values : List Bool) : List Nat :=
  (List.range (numBytesImplicit values.length)).map (byteExprImplicit values)

/-- Models the generated field initializer
`(bytes[#byte_index] & (1 << #bit_pos)) != 0` with `byte_index = i / 8` and
`bit_pos = i % 8` (least-significant-bit first within each byte). -/
def readBit (bytes : List Nat) (i : Nat) : Bool :=
  ((bytes.getD (i / 8) 0) &&& (1 <<< (i % 8))) != 0

/-- Models explicit-mode `from_bytes`: the reconstructed struct as the list of
its field values, one `readBit` per declared index, in declaration order. -/
def fromBytesExplicit (idxs : List Nat) (bytes : List Nat) : List Bool :=
  idxs.map (readBit bytes)

/-- Models implicit-mode `from_bytes` for a struct of `numFields` fields:
field `i` reads bit `i % 8` of byte `i / 8`. -/
def fromBytesImplicit (numFields : Nat) (bytes : List Nat) : List Bool :=
  (List.range numFields).map (readBit bytes)

/-- Models implicit-mode `as_bits`: the array literal
`[self.f1, ..., self.fn]` of the field values in declaration order. -/
def asBitsImplicit (values : List Bool) : List Bool := values

/-- Models implicit-mode `from_bits`: field `i` is initialized from
`bits[i]`. -/
def fromBitsImplicit (numFields : Nat) (bits : List Bool) : List Bool :=
  (List.range numFields).map (fun i => bits.getD i false)

/-- Models slot `i` of explicit-mode `as_bits`: the macro emits `self.field`
for the first declared field found with `*idx == i`
(`field_data.iter().find(|(_, idx)| *idx == i)`), and `false` when no field
claims the slot. -/
def slotExpr (fields : List Flag) (i : Nat) : Bool :=
  match fields.find? (fun f => f.1 == i) with
  | some f => f.2
  | none => false

/-- Models explicit-mode `as_bits`: the array literal of all
`array_size` slot expressions. -/
def asBitsExplicit (fields : List Flag) (size : Nat) : List Bool :=
  (List.range size).map (slotExpr fields)

/-- Models explicit-mode `from_bits`: field initializer `field: bits[#idx]`. -/
def fromBitsExplicit (idxs : List Nat) (bits : List Bool) : List Bool :=
  idxs.map (fun i => bits.getD i false)

/-- Schema-resolution failure of `derive_as_bits_explicit` when the supplied
`total_bits` value is too small for the maximum field index (the spec's
`SchemaError::IndexOutOfRange`). -/
inductive SchemaError where
  | IndexOutOfRange
deriving DecidableEq

/-- Models the array-size resolution of `derive_as_bits_explicit`:
`let array_size = total_bits.unwrap_or(max_index + 1);` followed by the
compile-time rejection `if array_size <= max_index`. -/
def resolveArraySize (idxs : List Nat) (override : Option Nat) : Except SchemaError Nat :=
  let m := maxIndex idxs
  let size := override.getD (m + 1)
  if size ≤ m then Except.error SchemaError.IndexOutOfRange else Except.ok size

/-- Modelled from the spec: `total_bytes = ceil(total_bits / 8)`, written as
floor division plus a carry so it is independent of the code's own
`(x + 7) / 8` formulation. -/
def specCeilDiv8 (totalBits : Nat) : Nat :=
  totalBits / 8 + (if totalBits % 8 = 0 then 0 else 1)

/-- Modelled from the spec: explicit-mode `total_bits` is
`max(declared indices) + 1`, or `0` if the declaration list is empty. -/
def specTotalBitsExplicit (idxs : List Nat) : Nat :=
  if idxs = [] then 0 else maxIndex idxs + 1

/-! ### Helper lemmas on bits of the emitted byte expressions -/

theorem readBit_eq_testBit (bytes : List Nat) (i : Nat) :
    readBit bytes i = (bytes.getD (i / 8) 0).testBit (i % 8) := by
  unfold readBit
  rw [Nat.one_shiftLeft, Nat.and_two_pow]
  cases h : (bytes.getD (i / 8) 0).testBit (i % 8) <;> simp [h]

theorem testBit_toNat_shiftLeft (b : Bool) (p k : Nat) :
    (b.toNat <<< p).testBit k = (b && decide (k = p)) := by
  cases b
  · simp [Bool.toNat, Nat.zero_shiftLeft, Nat.zero_testBit]
  · show ((1 : Nat) <<< p).testBit k = _
    rw [Nat.one_shiftLeft]
    by_cases hk : p = k
    · subst hk
      simp [Nat.testBit_two_pow_self]
    · rw [Nat.testBit_two_pow_of_ne hk]
      simp
      omega

theorem any_congr_mem {α : Type} (l : List α) (p q : α → Bool)
    (h : ∀ x ∈ l, p x = q x) : l.any p = l.any q := by
  induction l with
  | nil => rfl
  | cons a l ih =>
    rw [List.any_cons, List.any_cons, h a (List.mem_cons_self a l),
      ih (fun x hx => h x (List.mem_cons_of_mem a hx))]

theorem testBit_orTerms (ts : List Nat) (k : Nat) :
    (orTerms ts).testBit k = ts.any (fun t => t.testBit k) := by
  induction ts with
  | nil => simp [orTerms, Nat.zero_testBit]
  | cons t ts ih =>
    have hc : orTerms (t :: ts) = t ||| orTerms ts := rfl
    rw [hc, Nat.testBit_lor, ih, List.any_cons]

theorem testBit_orTerms_map {α : Type} (l : List α) (g : α → Bool) (h : α → Nat)
    (k : Nat) :
    (orTerms (l.map (fun x => (g x).toNat <<< h x))).testBit k
      = l.any (fun x => g x && decide (k = h x)) := by
  induction l with
  | nil => simp [orTerms, Nat.zero_testBit]
  | cons a l ih =>
    have hc : orTerms ((a :: l).map (fun x => (g x).toNat <<< h x))
        = ((g a).toNat <<< h a) ||| orTerms (l.map (fun x => (g x).toNat <<< h x)) := rfl
    rw [hc, Nat.testBit_lor, testBit_toNat_shiftLeft, ih, List.any_cons]

theorem any_range_eq_decide (m k : Nat) (f : Nat → Bool) :
    (List.range m).any (fun x => f x && decide (k = x)) = (decide (k < m) && f k) := by
  induction m with
  | zero => simp
  | succ m ih =>
    rw [List.range_succ, List.any_append, ih]
    have hsing : [m].any (fun x => f x && decide (k = x)) = (f m && decide (k = m)) := by
      simp
    rw [hsing]
    by_cases h : k = m
    · subst h
      simp [Nat.lt_succ_self, Nat.lt_irrefl]
    · have h3 : (k < m + 1) ↔ (k < m) := by omega
      simp [h, h3]

theorem testBit_byteExprExplicit (fields : List Flag) (j p : Nat) :
    (byteExprExplicit fields j).testBit p
      = fields.any (fun f => decide (f.1 = 8 * j + p) && (decide (p < 8) && f.2)) := by
  unfold byteExprExplicit
  rw [testBit_orTerms_map, List.any_filter]
  apply any_congr_mem
  intro f _
  cases hf : f.2
  · simp
  · simp only [Bool.and_true, Bool.true_and, Bool.and_eq_decide]
    exact decide_eq_decide.mpr (by omega)

theorem testBit_byteExprImplicit (v : List Bool) (j p : Nat) :
    (byteExprImplicit v j).testBit p
      = (decide (p < 8) && (decide (8 * j + p < v.length) && v.getD (8 * j + p) false)) := by
  unfold byteExprImplicit
  rw [testBit_orTerms_map, List.any_filter]
  have hcongr : ∀ x ∈ List.range 8,
      (decide (8 * j + x < v.length) && (v.getD (8 * j + x) false && decide (p = x)))
        = ((decide (8 * j + x < v.length) && v.getD (8 * j + x) false) && decide (p = x)) := by
    intro x _
    rw [Bool.and_assoc]
  rw [any_congr_mem _ _ _ hcongr, any_range_eq_decide]

theorem getD_map_range {α : Type} (n : Nat) (g : Nat → α) (d : α) (j : Nat) :
    ((List.range n).map g).getD j d = if j < n then g j else d := by
  rw [List.getD_eq_getElem?_getD, List.getElem?_map]
  by_cases h : j < n
  · rw [List.getElem?_range h]
    simp [h]
  · rw [List.getElem?_eq_none (by simpa using Nat.le_of_not_lt h)]
    simp [h]

theorem readBit_asBytesExplicit (fields : List Flag) (i : Nat) :
    readBit (asBytesExplicit fields) i
      = (decide (i / 8 < numBytesExplicit (fields.map Prod.fst))
          && fields.any (fun f => decide (f.1 = i) && f.2)) := by
  rw [readBit_eq_testBit]
  unfold asBytesExplicit
  rw [getD_map_range]
  by_cases h : i / 8 < numBytesExplicit (fields.map Prod.fst)
  · rw [if_pos h, testBit_byteExprExplicit]
    have h1 : 8 * (i / 8) + i % 8 = i := by omega
    have h2 : i % 8 < 8 := by omega
    simp [h1, h2, h]
  · rw [if_neg h]
    simp [h, Nat.zero_testBit]

theorem readBit_asBytesImplicit (v : List Bool) (i : Nat) :
    readBit (asBytesImplicit v) i = (decide (i < v.length) && v.getD i false) := by
  rw [readBit_eq_testBit]
  unfold asBytesImplicit
  rw [getD_map_range]
  by_cases h : i / 8 < numBytesImplicit v.length
  · rw [if_pos h, testBit_byteExprImplicit]
    have h1 : 8 * (i / 8) + i % 8 = i := by omega
    have h2 : i % 8 < 8 := by omega
    simp [h1, h2]
  · rw [if_neg h]
    have hn : ¬ (i < v.length) := by
      unfold numBytesImplicit at h
      omega
    simp [hn, Nat.zero_testBit]

/-! ### Helper lemmas on schemas: maximum index, uniqueness, lookup -/

theorem le_maxIndex (idxs : List Nat) (i : Nat) (h : i ∈ idxs) : i ≤ maxIndex idxs := by
  induction idxs with
  | nil => cases h
  | cons a l ih =>
    rcases List.mem_cons.mp h with h1 | h1
    · subst h1
      exact le_max_left _ _
    · exact le_trans (ih h1) (le_max_right _ _)

theorem maxIndex_mem (idxs : List Nat) (h : idxs ≠ []) : maxIndex idxs ∈ idxs := by
  induction idxs with
  | nil => exact absurd rfl h
  | cons a l ih =>
    by_cases hl : l = []
    · subst hl
      show max a (maxIndex []) ∈ [a]
      simp [maxIndex]
    · have hm := ih hl
      show max a (maxIndex l) ∈ a :: l
      rcases le_total a (maxIndex l) with hle | hle
      · rw [max_eq_right hle]
        exact List.mem_cons_of_mem _ hm
      · rw [max_eq_left hle]
        exact List.mem_cons_self _ _

theorem any_eq_of_mem (fields : List Flag)
    (hnd : (fields.map Prod.fst).Nodup) (i : Nat) (v : Bool)
    (hm : (i, v) ∈ fields) :
    fields.any (fun f => decide (f.1 = i) && f.2) = v := by
  induction fields with
  | nil => cases hm
  | cons f fs ih =>
    rw [List.map_cons, List.nodup_cons] at hnd
    rw [List.any_cons]
    rcases List.mem_cons.mp hm with h1 | h1
    · rw [← h1] at hnd ⊢
      have hfs : fs.any (fun g => decide (g.1 = i) && g.2) = false := by
        rw [List.any_eq_false]
        intro g hg
        have hne : g.1 ≠ i := by
          intro he
          have hmem : g.1 ∈ fs.map Prod.fst := List.mem_map_of_mem Prod.fst hg
          rw [he] at hmem
          exact hnd.1 hmem
        simp [hne]
      simp [hfs]
    · have hmem : i ∈ fs.map Prod.fst := List.mem_map_of_mem Prod.fst h1
      have hf1 : f.1 ≠ i := by
        intro he
        rw [he] at hnd
        exact hnd.1 hmem
      have hd : (decide (f.1 = i) && f.2) = false := by simp [hf1]
      rw [hd, Bool.false_or]
      exact ih hnd.2 h1

theorem find?_eq_of_mem (fields : List Flag)
    (hnd : (fields.map Prod.fst).Nodup) (i : Nat) (v : Bool)
    (hm : (i, v) ∈ fields) :
    fields.find? (fun f => f.1 == i) = some (i, v) := by
  induction fields with
  | nil => cases hm
  | cons f fs ih =>
    rw [List.map_cons, List.nodup_cons] at hnd
    rcases List.mem_cons.mp hm with h1 | h1
    · rw [← h1]
      rw [List.find?_cons_of_pos _ (by simp)]
    · have hmem : i ∈ fs.map Prod.fst := List.mem_map_of_mem Prod.fst h1
      have hf1 : f.1 ≠ i := by
        intro he
        rw [he] at hnd
        exact hnd.1 hmem
      rw [List.find?_cons_of_neg _ (by simp [hf1])]
      exact ih hnd.2 h1

theorem any_zip_map {g : Nat → Bool} (l : List Nat) (q : Flag → Bool) :
    (l.zip (l.map g)).any q = l.any (fun x => q (x, g x)) := by
  induction l with
  | nil => rfl
  | cons a l ih =>
    rw [List.map_cons, List.zip_cons_cons, List.any_cons, List.any_cons, ih]

theorem any_decide_mem (l : List Nat) (i : Nat) (h : Nat → Bool) :
    l.any (fun x => decide (x = i) && h x) = (decide (i ∈ l) && h i) := by
  induction l with
  | nil => simp
  | cons a l ih =>
    rw [List.any_cons, ih]
    by_cases ha : a = i
    · subst ha
      cases hh : h a <;> simp [hh, List.mem_cons]
    · have hia : ¬ (i = a) := fun he => ha he.symm
      simp [ha, List.mem_cons, hia]

/-! ### Claim theorems -/

/-- C1: for every schema with no bit-index collision and every assignment of
boolean values to its flags, decoding the byte-packed encoding of those values
yields the original values, for both implicit-mode and explicit-mode
byte-packed schemas. -/
theorem C1_roundtrip_bytes :
    (∀ values : List Bool,
        fromBytesImplicit values.length (asBytesImplicit values) = values)
    ∧ (∀ fields : List Flag, (fields.map Prod.fst).Nodup →
        fromBytesExplicit (fields.map Prod.fst) (asBytesExplicit fields)
          = fields.map Prod.snd) := by
  constructor
  · intro v
    unfold fromBytesImplicit
    apply List.ext_getElem (by simp)
    intro n h1 h2
    simp only [List.getElem_map, List.getElem_range]
    rw [readBit_asBytesImplicit]
    have hn : n < v.length := h2
    simp [hn, List.getD_eq_getElem?_getD, List.getElem?_eq_getElem hn]
  · intro fields hnd
    unfold fromBytesExplicit
    rw [List.map_map]
    apply List.map_congr_left
    intro f hf
    show readBit (asBytesExplicit fields) f.1 = f.2
    rw [readBit_asBytesExplicit]
    have h1 : f.1 ≤ maxIndex (fields.map Prod.fst) :=
      le_maxIndex _ _ (List.mem_map_of_mem Prod.fst hf)
    have h2 : f.1 / 8 < numBytesExplicit (fields.map Prod.fst) := by
      unfold numBytesExplicit
      omega
    have h3 : fields.any (fun g => decide (g.1 = f.1) && g.2) = f.2 :=
      any_eq_of_mem fields hnd f.1 f.2 hf
    simp [h2, h3]

/-- C1 witness: the explicit round trip applied to a concrete sparse schema. -/
theorem C1_witness :
    fromBytesExplicit [0, 3, 7] (asBytesExplicit [(0, true), (3, false), (7, true)])
      = [true, false, true] :=
  C1_roundtrip_bytes.2 [(0, true), (3, false), (7, true)] (by decide)

/-- C2 counterexample: two flags declared at the shared bit index 0 with values
`true` (declared first) then `false` (declared last).  Under "last write wins"
the encoded bit and the encoded slot would be `false` (= 0); the code instead
produces bit 1 (bitwise OR) in the byte form and `true` (first declared field)
in the array form. -/
theorem C2_counterexample :
    readBit (asBytesExplicit [(0, true), (0, false)]) 0 = true
    ∧ asBytesExplicit [(0, true), (0, false)] = [1]
    ∧ asBitsExplicit [(0, true), (0, false)] 1 = [true] := by
  refine ⟨by decide, by decide, by decide⟩

/-- C2 (amended): when flags collide on one bit index in an explicit-mode
schema, the byte-packed encoding sets the shared bit to the bitwise OR of the
colliding flags' values, and the boolean-array encoding gives the slot the
value of the first-declared colliding flag; decoding gives all colliding flags
the same decoded value (the value of the shared bit/slot), for both forms. -/
theorem C2_collision_behavior :
    (∀ fields : List Flag, ∀ i : Nat,
        readBit (asBytesExplicit fields) i
          = (decide (i / 8 < numBytesExplicit (fields.map Prod.fst))
              && fields.any (fun f => decide (f.1 = i) && f.2)))
    ∧ (∀ fields : List Flag, ∀ size i : Nat, i < size →
        (asBitsExplicit fields size).getD i false = slotExpr fields i)
    ∧ (∀ idxs bytes : List Nat, ∀ j k : Nat, idxs[j]? = idxs[k]? →
        (fromBytesExplicit idxs bytes)[j]? = (fromBytesExplicit idxs bytes)[k]?)
    ∧ (∀ idxs : List Nat, ∀ bits : List Bool, ∀ j k : Nat, idxs[j]? = idxs[k]? →
        (fromBitsExplicit idxs bits)[j]? = (fromBitsExplicit idxs bits)[k]?) := by
  refine ⟨readBit_asBytesExplicit, ?_, ?_, ?_⟩
  · intro fields size i hi
    unfold asBitsExplicit
    rw [getD_map_range, if_pos hi]
  · intro idxs bytes j k h
    unfold fromBytesExplicit
    rw [List.getElem?_map, List.getElem?_map, h]
  · intro idxs bits j k h
    unfold fromBitsExplicit
    rw [List.getElem?_map, List.getElem?_map, h]

/-- C2 witness: the amended collision behavior applied to the colliding schema
of the counterexample. -/
theorem C2_witness :
    ((asBitsExplicit [(0, true), (0, false)] 1).getD 0 false
        = slotExpr [(0, true), (0, false)] 0)
    ∧ ((fromBytesExplicit [0, 0] [1])[0]? = (fromBytesExplicit [0, 0] [1])[1]?) :=
  ⟨C2_collision_behavior.2.1 [(0, true), (0, false)] 1 0 (by decide),
    C2_collision_behavior.2.2.1 [0, 0] [1] 0 1 (by decide)⟩

/-- C6: in implicit mode the flag at 0-based declaration position `i` is stored
at bit `i % 8` of byte `i / 8` (least-significant-bit first); the 3-field
all-true struct encodes to `[0b00000111]` and decoding `[0b00000101]` yields
`(true, false, true)`. -/
theorem C6_implicit_layout :
    (∀ values : List Bool, ∀ i : Nat, i < values.length →
        readBit (asBytesImplicit values) i = values.getD i false)
    ∧ asBytesImplicit [true, true, true] = [7]
    ∧ fromBytesImplicit 3 [5] = [true, false, true] := by
  refine ⟨?_, by decide, by decide⟩
  intro v i hi
  rw [readBit_asBytesImplicit]
  simp [hi]

/-- C6 witness: the layout law applied to a concrete two-field struct. -/
theorem C6_witness :
    readBit (asBytesImplicit [true, false, true]) 1
      = [true, false, true].getD 1 false :=
  C6_implicit_layout.1 [true, false, true] 1 (by decide)

/-- C7: every bit position of the byte-packed encoding not claimed by any flag
is 0, and every slot of the boolean-array encoding not claimed by any flag is
`false`; the concrete sparse array encoding of `{true, false, true}` at indices
{0, 3, 7} with width 8. -/
theorem C7_unclaimed_zero :
    (∀ fields : List Flag, ∀ i : Nat, (∀ f ∈ fields, f.1 ≠ i) →
        readBit (asBytesExplicit fields) i = false)
    ∧ (∀ values : List Bool, ∀ i : Nat, values.length ≤ i →
        readBit (asBytesImplicit values) i = false)
    ∧ (∀ fields : List Flag, ∀ size i : Nat, (∀ f ∈ fields, f.1 ≠ i) →
        (asBitsExplicit fields size).getD i false = false)
    ∧ asBitsExplicit [(0, true), (3, false), (7, true)] 8
        = [true, false, false, false, false, false, false, true] := by
  refine ⟨?_, ?_, ?_, by decide⟩
  · intro fields i hun
    rw [readBit_asBytesExplicit]
    have hany : fields.any (fun f => decide (f.1 = i) && f.2) = false := by
      rw [List.any_eq_false]
      intro f hf
      simp [hun f hf]
    simp [hany]
  · intro v i hi
    rw [readBit_asBytesImplicit]
    have : ¬ (i < v.length) := by omega
    simp [this]
  · intro fields size i hun
    unfold asBitsExplicit
    rw [getD_map_range]
    have hs : slotExpr fields i = false := by
      unfold slotExpr
      rw [List.find?_eq_none.mpr]
      intro f hf
      simp [hun f hf]
    split <;> simp [hs]

/-- C7 witness: an unclaimed bit of a concrete one-flag schema reads as 0. -/
theorem C7_witness :
    readBit (asBytesExplicit [(1, true)]) 0 = false :=
  C7_unclaimed_zero.1 [(1, true)] 0 (by decide)

/-- C3: the byte-packed width is `ceil(total_bits / 8)` with `total_bits` the
number of flags in implicit mode and `max(declared indices) + 1` in explicit
mode (`0` for an empty declaration list, floored to the minimum of one byte);
3 implicit flags give 1 byte, 12 implicit flags give 2 bytes, explicit max
index 30 gives 4 bytes. -/
theorem C3_byte_width :
    (∀ n : Nat, numBytesImplicit n = specCeilDiv8 n)
    ∧ (∀ idxs : List Nat,
        numBytesExplicit idxs = max (specCeilDiv8 (specTotalBitsExplicit idxs)) 1)
    ∧ numBytesImplicit 3 = 1
    ∧ numBytesImplicit 12 = 2
    ∧ numBytesExplicit [0, 1, 3, 2, 6, 7, 4, 5, 8, 10, 30, 9] = 4 := by
  refine ⟨?_, ?_, by decide, by decide, by decide⟩
  · intro n
    unfold numBytesImplicit specCeilDiv8
    split <;> omega
  · intro idxs
    by_cases h : idxs = []
    · subst h
      decide
    · unfold numBytesExplicit specTotalBitsExplicit specCeilDiv8
      rw [if_neg h, Nat.max_def]
      split_ifs <;> omega

/-- C4 counterexample: for an empty declaration list with no override the code
resolves the array width to 1 (`max().unwrap_or(0) + 1`), not 0 as the claim
states, and the emitted array has length 1. -/
theorem C4_counterexample :
    resolveArraySize [] none = Except.ok 1
    ∧ resolveArraySize [] none ≠ Except.ok 0
    ∧ (asBitsExplicit [] 1).length = 1 := by
  refine ⟨rfl, ?_, by decide⟩
  intro h
  simp [resolveArraySize] at h

/-- C4 (amended): the explicit-mode boolean-array length equals the supplied
total-bits override verbatim when one is given (when resolution succeeds, else
resolution reports `IndexOutOfRange`), and `max(declared indices) + 1` when no
override is given, where the maximum of an empty declaration list defaults to
0 — so an empty list without override gives width 1, not 0. Indices {0,3,7}
with no override give 8, with override 8 give 8, and max index 2 without
override gives 3. -/
theorem C4_array_width :
    (∀ idxs : List Nat, ∀ n : Nat,
        resolveArraySize idxs (some n) = Except.ok n
        ∨ resolveArraySize idxs (some n) = Except.error SchemaError.IndexOutOfRange)
    ∧ (∀ idxs : List Nat, resolveArraySize idxs none = Except.ok (maxIndex idxs + 1))
    ∧ resolveArraySize [] none = Except.ok 1
    ∧ (∀ fields : List Flag, ∀ size : Nat, (asBitsExplicit fields size).length = size)
    ∧ resolveArraySize [0, 3, 7] none = Except.ok 8
    ∧ resolveArraySize [0, 3, 7] (some 8) = Except.ok 8
    ∧ resolveArraySize [0, 2] none = Except.ok 3 := by
  refine ⟨?_, ?_, rfl, ?_, rfl, rfl, rfl⟩
  · intro idxs n
    by_cases h : n ≤ maxIndex idxs
    · right
      simp [resolveArraySize, h]
    · left
      simp [resolveArraySize, h]
  · intro idxs
    simp [resolveArraySize]
  · intro fields size
    unfold asBitsExplicit
    simp

/-- C5 counterexample: for an empty declaration list with override 0 the code
rejects the schema with `IndexOutOfRange` (the max index defaults to 0 and
`0 <= 0`), although no declared bit index is ≥ 0 exists — the claimed
equivalence fails there. -/
theorem C5_counterexample :
    resolveArraySize [] (some 0) = Except.error SchemaError.IndexOutOfRange
    ∧ ¬ (∃ i ∈ ([] : List Nat), 0 ≤ i) := by
  refine ⟨rfl, by simp⟩

/-- C5 (amended): for a non-empty declaration list, resolving an explicit-mode
array-form schema with a supplied total-bits override fails with
`IndexOutOfRange` if and only if some declared bit index is ≥ the override;
otherwise resolution succeeds using the override as the width.  (For an empty
list the check compares the override against a max index defaulting to 0, so
override 0 is also rejected.) -/
theorem C5_override_out_of_range (idxs : List Nat) (n : Nat) (h : idxs ≠ []) :
    (resolveArraySize idxs (some n) = Except.error SchemaError.IndexOutOfRange
      ↔ ∃ i ∈ idxs, n ≤ i)
    ∧ ((∀ i ∈ idxs, i < n) → resolveArraySize idxs (some n) = Except.ok n) := by
  constructor
  · constructor
    · intro he
      by_cases hle : n ≤ maxIndex idxs
      · exact ⟨maxIndex idxs, maxIndex_mem idxs h, hle⟩
      · simp [resolveArraySize, hle] at he
    · rintro ⟨i, hi, hni⟩
      have hle : n ≤ maxIndex idxs := le_trans hni (le_maxIndex idxs i hi)
      simp [resolveArraySize, hle]
  · intro hall
    have hle : ¬ (n ≤ maxIndex idxs) := by
      have := hall _ (maxIndex_mem idxs h)
      omega
    simp [resolveArraySize, hle]

/-- C5 witness: the amended equivalence applied to indices {0, 3, 7} with
override 8. -/
theorem C5_witness :
    ((resolveArraySize [0, 3, 7] (some 8) = Except.error SchemaError.IndexOutOfRange
        ↔ ∃ i ∈ [0, 3, 7], 8 ≤ i)
      ∧ ((∀ i ∈ [0, 3, 7], i < 8) → resolveArraySize [0, 3, 7] (some 8) = Except.ok 8)) :=
  C5_override_out_of_range [0, 3, 7] 8 (by decide)

/-- C8: for every schema with no bit-index collision and every assignment of
boolean values to its flags, decoding the boolean-array encoding of those
values yields the original values, for both implicit-mode and explicit-mode
array-form schemas (the explicit width being any resolved width larger than
every declared index, as the schema resolution guarantees). -/
theorem C8_roundtrip_bits :
    (∀ values : List Bool,
        fromBitsImplicit values.length (asBitsImplicit values) = values)
    ∧ (∀ fields : List Flag, ∀ size : Nat, (fields.map Prod.fst).Nodup →
        (∀ f ∈ fields, f.1 < size) →
        fromBitsExplicit (fields.map Prod.fst) (asBitsExplicit fields size)
          = fields.map Prod.snd) := by
  constructor
  · intro v
    unfold fromBitsImplicit asBitsImplicit
    apply List.ext_getElem (by simp)
    intro n h1 h2
    simp only [List.getElem_map, List.getElem_range]
    have hn : n < v.length := h2
    rw [List.getD_eq_getElem?_getD, List.getElem?_eq_getElem hn, Option.getD_some]
  · intro fields size hnd hlt
    unfold fromBitsExplicit
    rw [List.map_map]
    apply List.map_congr_left
    intro f hf
    show (asBitsExplicit fields size).getD f.1 false = f.2
    unfold asBitsExplicit
    rw [getD_map_range, if_pos (hlt f hf)]
    unfold slotExpr
    rw [find?_eq_of_mem fields hnd f.1 f.2 hf]

/-- C8 witness: the explicit array round trip applied to the sparse
{0, 3, 7} schema of width 8. -/
theorem C8_witness :
    fromBitsExplicit [0, 3, 7] (asBitsExplicit [(0, true), (3, false), (7, true)] 8)
      = [true, false, true] :=
  C8_roundtrip_bits.2 [(0, true), (3, false), (7, true)] 8 (by decide) (by decide)

/-- C10: for the byte-packed form in both modes, for every byte buffer of the
schema's width whose bytes are in range and in which every bit position not
claimed by any flag is 0, re-encoding the decoded value reproduces the buffer
exactly. -/
theorem C10_reencode_bytes :
    (∀ (n : Nat) (b : List Nat),
        b.length = numBytesImplicit n →
        (∀ x ∈ b, x < 256) →
        (∀ i : Nat, n ≤ i → readBit b i = false) →
        asBytesImplicit (fromBytesImplicit n b) = b)
    ∧ (∀ (idxs : List Nat) (b : List Nat),
        b.length = numBytesExplicit idxs →
        (∀ x ∈ b, x < 256) →
        (∀ i : Nat, i ∉ idxs → readBit b i = false) →
        asBytesExplicit (idxs.zip (fromBytesExplicit idxs b)) = b) := by
  constructor
  · intro n b hlen hbyte hun
    have hlen2 : (fromBytesImplicit n b).length = n := by
      simp [fromBytesImplicit]
    unfold asBytesImplicit
    rw [hlen2]
    apply List.ext_getElem (by simp [hlen])
    intro j hj1 hj2
    simp only [List.getElem_map, List.getElem_range]
    apply Nat.eq_of_testBit_eq
    intro p
    rw [testBit_byteExprImplicit, hlen2]
    have hgd : (fromBytesImplicit n b).getD (8 * j + p) false
        = (if 8 * j + p < n then readBit b (8 * j + p) else false) := by
      unfold fromBytesImplicit
      rw [getD_map_range]
    rw [hgd]
    by_cases hp : p < 8
    · have e1 : (8 * j + p) / 8 = j := by omega
      have e2 : (8 * j + p) % 8 = p := by omega
      have hrb : readBit b (8 * j + p) = b[j].testBit p := by
        rw [readBit_eq_testBit, e1, e2, List.getD_eq_getElem?_getD,
          List.getElem?_eq_getElem hj2, Option.getD_some]
      by_cases hin : 8 * j + p < n
      · rw [if_pos hin]
        simp [hp, hin, hrb]
      · rw [if_neg hin]
        have hz : b[j].testBit p = false := by
          rw [← hrb]
          exact hun (8 * j + p) (by omega)
        simp [hz, hin]
    · have h256 : b[j] < 2 ^ p := by
        have := hbyte b[j] (List.getElem_mem hj2)
        have hpow : (256 : Nat) ≤ 2 ^ p := by
          calc (256 : Nat) = 2 ^ 8 := by norm_num
          _ ≤ 2 ^ p := Nat.pow_le_pow_right (by norm_num) (by omega)
        omega
      have hz : b[j].testBit p = false := Nat.testBit_lt_two_pow h256
      simp [hp, hz]
  · intro idxs b hlen hbyte hun
    have hfst : (idxs.zip (fromBytesExplicit idxs b)).map Prod.fst = idxs := by
      apply List.map_fst_zip
      simp [fromBytesExplicit]
    unfold asBytesExplicit
    rw [hfst]
    apply List.ext_getElem (by simp [hlen])
    intro j hj1 hj2
    simp only [List.getElem_map, List.getElem_range]
    apply Nat.eq_of_testBit_eq
    intro p
    rw [testBit_byteExprExplicit]
    show (List.zip idxs (List.map (readBit b) idxs)).any
        (fun f => decide (f.1 = 8 * j + p) && (decide (p < 8) && f.2)) = _
    rw [any_zip_map, any_decide_mem]
    by_cases hp : p < 8
    · have e1 : (8 * j + p) / 8 = j := by omega
      have e2 : (8 * j + p) % 8 = p := by omega
      have hrb : readBit b (8 * j + p) = b[j].testBit p := by
        rw [readBit_eq_testBit, e1, e2, List.getD_eq_getElem?_getD,
          List.getElem?_eq_getElem hj2, Option.getD_some]
      by_cases hin : (8 * j + p) ∈ idxs
      · simp [hp, hin, hrb]
      · have hz : b[j].testBit p = false := by
          rw [← hrb]
          exact hun (8 * j + p) hin
        simp [hz, hin]
    · have h256 : b[j] < 2 ^ p := by
        have := hbyte b[j] (List.getElem_mem hj2)
        have hpow : (256 : Nat) ≤ 2 ^ p := by
          calc (256 : Nat) = 2 ^ 8 := by norm_num
          _ ≤ 2 ^ p := Nat.pow_le_pow_right (by norm_num) (by omega)
        omega
      have hz : b[j].testBit p = false := Nat.testBit_lt_two_pow h256
      simp [hp, hz]

/-- C10 witness: re-encoding the decoded all-zero buffer of the sparse
{0, 3, 7} schema reproduces it. -/
theorem C10_witness :
    asBytesExplicit ([0, 3, 7].zip (fromBytesExplicit [0, 3, 7] [0])) = [0] :=
  C10_reencode_bytes.2 [0, 3, 7] [0] (by decide) (by decide)
    (by
      intro i _
      have h0 : ([0] : List Nat).getD (i / 8) 0 = 0 := by
        cases h : i / 8 <;> rfl
      rw [readBit_eq_testBit, h0, Nat.zero_testBit])

end AsBitMaskRs
